import Mathlib

/-!
Verification development for the PFS-FAHP / PFS-FTOPSIS computation core
(`fahpftopss.py`).  The numeric layer of the program is embedded shallowly:
Python floats are modelled as real numbers, Python lists as `List`, and a
Python function that can raise an exception is modelled as an
`Option`-returning function (`none` = the call raises).
-/

namespace FahpFtopsis

/-- A Pythagorean fuzzy value: the `@dataclass PFS` with fields `mu` and `nu`. -/
structure PFS where
  mu : ℝ
  nu : ℝ

instance : Inhabited PFS := ⟨⟨0, 0⟩⟩

/-- The validating constructor `PFS(mu, nu)`: `__post_init__` raises
(`none`) exactly when `mu**2 + nu**2 > 1 + 1e-9`; no other check is made. -/
noncomputable def PFS.make (mu nu : ℝ) : Option PFS :=
  if mu ^ 2 + nu ^ 2 > 1 + 1e-9 then none else some ⟨mu, nu⟩

/-- The method `PFS.score`: `mu**2 - nu**2`. -/
noncomputable def PFS.score (p : PFS) : ℝ :=
  p.mu ^ 2 - p.nu ^ 2

/-- Helper: `PFS.make` fails exactly on violation of the Pythagorean bound. -/
theorem PFS.make_eq_none_iff (mu nu : ℝ) :
    PFS.make mu nu = none ↔ mu ^ 2 + nu ^ 2 > 1 + 1e-9 := by
  unfold PFS.make
  split <;> simp_all

/-- Helper: `PFS.make` succeeds (with the unmodified components) exactly when
the Pythagorean bound holds. -/
theorem PFS.make_eq_some_iff (mu nu : ℝ) :
    PFS.make mu nu = some ⟨mu, nu⟩ ↔ mu ^ 2 + nu ^ 2 ≤ 1 + 1e-9 := by
  unfold PFS.make
  split <;> simp_all

/-- The local `g` of `fahp_weights(pfs_matrix)`: the code builds
`S[i][j] = pfs_matrix[i][j].mu` for `i, j < n` with `n = len(pfs_matrix)`
(on a square matrix `row.take n = row`), then the row geometric means
`g[i] = prod(S[i]) ** (1.0 / n)`. -/
noncomputable def fahp_g (pfs_matrix : List (List PFS)) : List ℝ :=
  (pfs_matrix.map fun row => (row.take pfs_matrix.length).map PFS.mu).map
    fun srow => srow.prod ^ ((1 : ℝ) / pfs_matrix.length)

/-- The function `fahp_weights(pfs_matrix)`: normalize the row geometric means
by `total = sum(g)`, returning the uniform vector `[1.0 / n] * n` when
`total == 0`. -/
noncomputable def fahp_weights (pfs_matrix : List (List PFS)) : List ℝ :=
  if (fahp_g pfs_matrix).sum = 0 then
    List.replicate pfs_matrix.length (1 / (pfs_matrix.length : ℝ))
  else (fahp_g pfs_matrix).map fun gi => gi / (fahp_g pfs_matrix).sum

/-- Helper: dividing every entry of a list by a constant divides the sum. -/
theorem sum_map_div (l : List ℝ) (c : ℝ) :
    (l.map fun x => x / c).sum = l.sum / c := by
  induction l with
  | nil => simp
  | cons a t ih => simp [ih, add_div]

/-- Helper: `fahp_g` only looks at the `mu` components of the matrix. -/
theorem fahp_g_eq_of_mu_eq (M M' : List (List PFS))
    (h : M'.map (List.map PFS.mu) = M.map (List.map PFS.mu)) :
    fahp_g M' = fahp_g M := by
  have gmu : ∀ X : List (List PFS), fahp_g X =
      (X.map (List.map PFS.mu)).map fun t =>
        (t.take X.length).prod ^ ((1 : ℝ) / X.length) := by
    intro X
    unfold fahp_g
    simp only [List.map_map]
    congr 1
    funext row
    simp [Function.comp, List.map_take]
  have hlen : M'.length = M.length := by
    have := congrArg List.length h
    simpa using this
  rw [gmu M', gmu M, h, hlen]

/-- Helper: every entry of `fahp_g` is nonnegative when every `mu` is. -/
theorem fahp_g_nonneg (M : List (List PFS))
    (hval : ∀ row ∈ M, ∀ p ∈ row, 0 ≤ p.mu) :
    ∀ x ∈ fahp_g M, 0 ≤ x := by
  intro x hx
  unfold fahp_g at hx
  simp only [List.map_map, List.mem_map, Function.comp] at hx
  obtain ⟨row, hrow, rfl⟩ := hx
  refine Real.rpow_nonneg (List.prod_nonneg ?_) _
  intro a ha
  simp only [List.mem_map] at ha
  obtain ⟨p, hp, rfl⟩ := ha
  exact hval row hrow p (List.take_subset _ _ hp)

/-- C1: for every valid square consensus matrix of size `N ≥ 1`, the weights
computed by `fahp_weights` sum to `1.0` within `1e-9`, have no negative
entries, and depend only on the `mu` components of the matrix (the `nu`
components are never used). -/
theorem fahp_weights_sum_one_nonneg_mu_only (M : List (List PFS))
    (hN : 1 ≤ M.length)
    (_hsq : ∀ row ∈ M, row.length = M.length)
    (hval : ∀ row ∈ M, ∀ p ∈ row, (0 ≤ p.mu ∧ p.mu ≤ 1) ∧
      p.mu ^ 2 + p.nu ^ 2 ≤ 1 + 1e-9) :
    |(fahp_weights M).sum - 1| ≤ 1e-9 ∧
    (∀ w ∈ fahp_weights M, 0 ≤ w) ∧
    (∀ M' : List (List PFS),
      M'.map (List.map PFS.mu) = M.map (List.map PFS.mu) →
      fahp_weights M' = fahp_weights M) := by
  have hg : ∀ x ∈ fahp_g M, 0 ≤ x :=
    fahp_g_nonneg M fun row hrow p hp => ((hval row hrow p hp).1).1
  have hnR : ((M.length : ℝ)) ≠ 0 := Nat.cast_ne_zero.mpr (by omega)
  refine ⟨?_, ?_, ?_⟩
  · unfold fahp_weights
    by_cases h : (fahp_g M).sum = 0
    · rw [if_pos h, List.sum_replicate, nsmul_eq_mul, mul_one_div, div_self hnR]
      norm_num
    · rw [if_neg h, sum_map_div, div_self h]
      norm_num
  · intro w hw
    unfold fahp_weights at hw
    by_cases h : (fahp_g M).sum = 0
    · rw [if_pos h] at hw
      rw [List.eq_of_mem_replicate hw]
      positivity
    · rw [if_neg h] at hw
      simp only [List.mem_map] at hw
      obtain ⟨gi, hgi, rfl⟩ := hw
      exact div_nonneg (hg gi hgi) (List.sum_nonneg hg)
  · intro M' hMM
    have hlen : M'.length = M.length := by
      have := congrArg List.length hMM
      simpa using this
    unfold fahp_weights
    rw [fahp_g_eq_of_mu_eq M M' hMM, hlen]

/-- Witness for C1 at the concrete one-by-one matrix `[[PFS(0.7, 0.7)]]`. -/
theorem fahp_weights_sum_one_nonneg_mu_only_witness :
    |(fahp_weights [[⟨0.7, 0.7⟩]]).sum - 1| ≤ 1e-9 ∧
    (∀ w ∈ fahp_weights [[⟨0.7, 0.7⟩]], 0 ≤ w) ∧
    (∀ M' : List (List PFS),
      M'.map (List.map PFS.mu) = [[(⟨0.7, 0.7⟩ : PFS)]].map (List.map PFS.mu) →
      fahp_weights M' = fahp_weights [[⟨0.7, 0.7⟩]]) :=
  fahp_weights_sum_one_nonneg_mu_only [[⟨0.7, 0.7⟩]] (by norm_num)
    (by intro row hrow; simp at hrow; simp [hrow])
    (by intro row hrow p hp; simp at hrow; subst hrow; simp at hp; subst hp; norm_num)

/-- C6: for every square matrix of size `N ≥ 1` whose geometric-mean row sum
`sum(g)` is zero, `fahp_weights` returns the uniform vector `[1/N] * N`
instead of dividing by zero; in particular a matrix whose every cell has
`mu = 0` has all row products zero and hence a zero geometric-mean sum. -/
theorem fahp_weights_uniform_of_gsum_zero (M : List (List PFS))
    (hN : 1 ≤ M.length)
    (hsq : ∀ row ∈ M, row.length = M.length) :
    ((fahp_g M).sum = 0 →
      fahp_weights M = List.replicate M.length (1 / (M.length : ℝ))) ∧
    ((∀ row ∈ M, ∀ p ∈ row, p.mu = 0) → (fahp_g M).sum = 0) := by
  constructor
  · intro hsum
    unfold fahp_weights
    rw [if_pos hsum]
  · intro hmu
    have hnR : ((1 : ℝ) / (M.length : ℝ)) ≠ 0 :=
      one_div_ne_zero (Nat.cast_ne_zero.mpr (by omega))
    have hg0 : ∀ x ∈ fahp_g M, x = 0 := by
      intro x hx
      unfold fahp_g at hx
      simp only [List.map_map, List.mem_map, Function.comp] at hx
      obtain ⟨row, hrow, rfl⟩ := hx
      have hlen : ((row.take M.length).map PFS.mu).length = M.length := by
        simp [hsq row hrow]
      have hzero : (0 : ℝ) ∈ (row.take M.length).map PFS.mu := by
        have hne : (row.take M.length).map PFS.mu ≠ [] := by
          intro hcontra
          rw [hcontra] at hlen
          simp at hlen
          omega
        obtain ⟨a, ha⟩ := List.exists_mem_of_ne_nil _ hne
        have ha' := ha
        simp only [List.mem_map] at ha'
        obtain ⟨p, hp, rfl⟩ := ha'
        rwa [hmu row hrow p (List.take_subset _ _ hp)] at ha
      rw [List.prod_eq_zero hzero, Real.zero_rpow hnR]
    exact List.sum_eq_zero hg0

/-- Witness for C6 at the 2-by-2 matrix with `mu` grid `[[0, 1], [1, 0]]`:
not all cells have `mu = 0`, yet both row products vanish, `sum(g) = 0`,
and the uniform vector `[1/2, 1/2]` is returned. -/
theorem fahp_weights_uniform_of_gsum_zero_witness :
    (fahp_g [[(⟨0, 0⟩ : PFS), ⟨1, 0⟩], [⟨1, 0⟩, ⟨0, 0⟩]]).sum = 0 ∧
    fahp_weights [[(⟨0, 0⟩ : PFS), ⟨1, 0⟩], [⟨1, 0⟩, ⟨0, 0⟩]] = [1 / 2, 1 / 2] := by
  have hg : (fahp_g [[(⟨0, 0⟩ : PFS), ⟨1, 0⟩], [⟨1, 0⟩, ⟨0, 0⟩]]).sum = 0 := by
    have h0 : (0 : ℝ) ^ ((1 : ℝ) / ((2 : ℕ) : ℝ)) = 0 :=
      Real.zero_rpow (by norm_num)
    unfold fahp_g
    norm_num [h0]
  have h := (fahp_weights_uniform_of_gsum_zero
    [[(⟨0, 0⟩ : PFS), ⟨1, 0⟩], [⟨1, 0⟩, ⟨0, 0⟩]] (by norm_num)
    (by intro row hrow; simp at hrow; rcases hrow with rfl | rfl <;> rfl)).1 hg
  refine ⟨hg, ?_⟩
  rw [h]
  norm_num [List.replicate]

/-- C3 counterexample: `mu = -1/2` lies outside `[0, 1]` while
`mu^2 + nu^2 = 1/4` satisfies the Pythagorean bound, yet the constructor
succeeds, so failure is not implied by a component being outside `[0, 1]`. -/
theorem pfs_make_accepts_component_outside_unit :
    ((-1 / 2 : ℝ) < 0) ∧ ((-1 / 2 : ℝ) ^ 2 + (0 : ℝ) ^ 2 ≤ 1 + 1e-9) ∧
    PFS.make (-1 / 2) 0 = some ⟨-1 / 2, 0⟩ :=
  ⟨by norm_num, by norm_num, (PFS.make_eq_some_iff _ _).mpr (by norm_num)⟩

/-- One row of the result table built by `ftopsis`: the columns
`Alternative`, `D+`, `D-` and `CC` of the DataFrame. -/
structure RankRow where
  alt : String
  dPlus : ℝ
  dMinus : ℝ
  cc : ℝ

instance : Inhabited RankRow := ⟨⟨"", 0, 0, 0⟩⟩

/-- The score matrix of `ftopsis`: `S[i][j] = pfs_matrix[i][j].score()` for
`j < n` with `n = len(pfs_matrix[0])` (rows at least that long are read up to
`n`; a shorter row would raise, see `ftopsisGuard`). -/
noncomputable def scoreMatrix (pfs_matrix : List (List PFS)) : List (List ℝ) :=
  pfs_matrix.map fun row => (row.take (pfs_matrix.headD []).length).map PFS.score

/-- The raw column norm `sqrt(sum(S[i][j] ** 2 for i in range(m)))`. -/
noncomputable def colNorm (S : List (List ℝ)) (j : ℕ) : ℝ :=
  Real.sqrt ((S.map fun row => row.getD j 0 ^ 2).sum)

/-- The denominator used for column `j`: `1.0` is substituted when the norm
is zero (`if denom == 0: denom = 1.0`). -/
noncomputable def colDenom (S : List (List ℝ)) (j : ℕ) : ℝ :=
  if colNorm S j = 0 then 1 else colNorm S j

/-- The normalized matrix `R[i][j] = S[i][j] / denom_j`. -/
noncomputable def normMatrix (S : List (List ℝ)) : List (List ℝ) :=
  S.map fun row => row.mapIdx fun j s => s / colDenom S j

/-- The weighted normalized matrix `V[i][j] = R[i][j] * weights[j]`. -/
noncomputable def weightedMatrix (S : List (List ℝ)) (weights : List ℝ) :
    List (List ℝ) :=
  (normMatrix S).map fun row => row.mapIdx fun j r => r * weights.getD j 0

/-- The positive ideal `v_plus[j] = max(V[i][j] for i in range(m))`
(every call site has `m ≥ 1`). -/
noncomputable def vPlus (V : List (List ℝ)) (j : ℕ) : ℝ :=
  ((V.map fun row => row.getD j 0).max?).getD 0

/-- The negative ideal `v_minus[j] = min(V[i][j] for i in range(m))`. -/
noncomputable def vMinus (V : List (List ℝ)) (j : ℕ) : ℝ :=
  ((V.map fun row => row.getD j 0).min?).getD 0

/-- `D_plus[i] = sqrt(sum((V[i][j] - v_plus[j]) ** 2 for j in range(n)))`. -/
noncomputable def dPlusList (V : List (List ℝ)) : List ℝ :=
  V.map fun row => Real.sqrt ((row.mapIdx fun j v => (v - vPlus V j) ^ 2).sum)

/-- `D_minus[i] = sqrt(sum((V[i][j] - v_minus[j]) ** 2 for j in range(n)))`. -/
noncomputable def dMinusList (V : List (List ℝ)) : List ℝ :=
  V.map fun row => Real.sqrt ((row.mapIdx fun j v => (v - vMinus V j) ^ 2).sum)

/-- The closeness coefficients
`CC[i] = D_minus[i] / (D_plus[i] + D_minus[i]) if (D_plus[i] + D_minus[i]) != 0 else 0.0`. -/
noncomputable def ccList (dp dm : List ℝ) : List ℝ :=
  (dp.zip dm).map fun p => if p.1 + p.2 ≠ 0 then p.2 / (p.1 + p.2) else 0

/-- The rows of the result DataFrame in input (pre-sort) order. -/
noncomputable def ftopsisRows (pfs_matrix : List (List PFS)) (weights : List ℝ)
    (alternatives : List String) : List RankRow :=
  let V := weightedMatrix (scoreMatrix pfs_matrix) weights
  let dp := dPlusList V
  let dm := dMinusList V
  (alternatives.zip ((dp.zip dm).zip (ccList dp dm))).map fun x =>
    ⟨x.1, x.2.1.1, x.2.1.2, x.2.2⟩

/-- The key order of the final `sort_values(by="CC", ascending=False)`:
row `a` may precede row `b` when `b.cc ≤ a.cc`. -/
noncomputable def ccGe (a b : RankRow) : Bool :=
  decide (b.cc ≤ a.cc)

/-- The conditions under which `ftopsis` runs without raising: a nonempty
matrix (`pfs_matrix[0]` is read), rows of length at least
`n = len(pfs_matrix[0])` (cells `pfs_matrix[i][j]` are read for `j < n`),
a weight vector of length at least `n` (`weights[j]` is read for `j < n`),
and exactly one alternative label per matrix row (the DataFrame constructor
requires its columns to have equal length). -/
def ftopsisGuard (pfs_matrix : List (List PFS)) (weights : List ℝ)
    (alternatives : List String) : Bool :=
  !pfs_matrix.isEmpty &&
    pfs_matrix.all (fun row => (pfs_matrix.headD []).length ≤ row.length) &&
    ((pfs_matrix.headD []).length ≤ weights.length) &&
    (alternatives.length == pfs_matrix.length)

/-- The function `ftopsis(pfs_matrix, weights, alternatives)`: the rows sorted
by `CC` descending.  The final `sort_values(by="CC", ascending=False)`
reverses the rows, argsorts them ascending with numpy's default
`kind='quicksort'` (introsort) and reverses the resulting index order.  That
kind is stable only on numpy's small-array insertion-sort path; for larger
frames pandas guarantees no more than a `CC`-descending permutation of the
rows, leaving the order among equal keys unspecified.  The embedding has to
pick one result and uses a stable descending merge sort: on the small frames
the program builds (five rows) this coincides with the library's behaviour,
and in general it fixes one of the permitted outcomes, so the order among
rows with equal `CC` is a modelling choice here, not a property of the
program.  `none` models the exceptions described at `ftopsisGuard`. -/
noncomputable def ftopsis (pfs_matrix : List (List PFS)) (weights : List ℝ)
    (alternatives : List String) : Option (List RankRow) :=
  if ftopsisGuard pfs_matrix weights alternatives then
    some ((ftopsisRows pfs_matrix weights alternatives).mergeSort ccGe)
  else none

/-- C3 amended: construction of a `PFS` value fails exactly when
`mu^2 + nu^2 > 1 + 1e-9`; the components are not checked against `[0, 1]`,
so a component outside `[0, 1]` alone never causes a failure. -/
theorem pfs_make_fails_iff_pythagorean (mu nu : ℝ) :
    PFS.make mu nu = none ↔ mu ^ 2 + nu ^ 2 > 1 + 1e-9 :=
  PFS.make_eq_none_iff mu nu

/-- Helper: unpacking the Boolean precondition of `ftopsis`. -/
theorem ftopsisGuard_spec (M : List (List PFS)) (w : List ℝ)
    (alts : List String) (hg : ftopsisGuard M w alts = true) :
    M ≠ [] ∧ (∀ row ∈ M, (M.headD []).length ≤ row.length) ∧
    (M.headD []).length ≤ w.length ∧ alts.length = M.length := by
  unfold ftopsisGuard at hg
  simp only [Bool.and_eq_true, Bool.not_eq_true', List.all_eq_true,
    decide_eq_true_eq, beq_iff_eq] at hg
  refine ⟨?_, hg.1.1.2, hg.1.2, hg.2⟩
  intro hnil
  rw [hnil] at hg
  simp at hg

/-- Helper: a zero closeness denominator at index `i` yields `CC[i] = 0`. -/
theorem ccList_getD_zero (dp dm : List ℝ) (i : ℕ) (h1 : i < dp.length)
    (h2 : i < dm.length) (h : dp.getD i 0 + dm.getD i 0 = 0) :
    (ccList dp dm).getD i 0 = 0 := by
  induction dp generalizing dm i with
  | nil => simp at h1
  | cons a dpt ih =>
    cases dm with
    | nil => simp at h2
    | cons b dmt =>
      cases i with
      | zero =>
        simp only [List.getD_cons_zero] at h
        simp [ccList, h]
      | succ k =>
        simp only [List.getD_cons_succ] at h
        have hk1 : k < dpt.length := by simpa using h1
        have hk2 : k < dmt.length := by simpa using h2
        have := ih dmt k hk1 hk2 h
        simpa [ccList] using this

/-- Helper: the pre-sort row list has one row per alternative label whenever
the label count matches the matrix row count. -/
theorem ftopsisRows_length (M : List (List PFS)) (w : List ℝ)
    (alts : List String) (h : alts.length = M.length) :
    (ftopsisRows M w alts).length = alts.length := by
  simp [ftopsisRows, dPlusList, dMinusList, ccList, weightedMatrix,
    normMatrix, scoreMatrix, h]

/-- C4: the documented degenerate inputs do not raise: when a column's score
norm is zero the denominator is replaced by `1` and the normalized column is
all zeros; when an alternative's two ideal distances sum to zero its
closeness coefficient is `0.0`; and under the dimension preconditions the
whole computation succeeds, producing one row per alternative. -/
theorem ftopsis_degenerate_defaults (M : List (List PFS)) (w : List ℝ)
    (alts : List String) (hg : ftopsisGuard M w alts = true) :
    (∀ j, colNorm (scoreMatrix M) j = 0 →
      colDenom (scoreMatrix M) j = 1 ∧
      ∀ row ∈ normMatrix (scoreMatrix M), row.getD j 0 = 0) ∧
    (∀ i : ℕ, i < M.length →
      (dPlusList (weightedMatrix (scoreMatrix M) w)).getD i 0 +
        (dMinusList (weightedMatrix (scoreMatrix M) w)).getD i 0 = 0 →
      (ccList (dPlusList (weightedMatrix (scoreMatrix M) w))
        (dMinusList (weightedMatrix (scoreMatrix M) w))).getD i 0 = 0) ∧
    (∃ out, ftopsis M w alts = some out ∧ out.length = alts.length) := by
  refine ⟨?_, ?_, ?_⟩
  · intro j hnorm
    refine ⟨by rw [colDenom, if_pos hnorm], ?_⟩
    intro row hrow
    have hsum0 : ((scoreMatrix M).map fun r => r.getD j 0 ^ 2).sum = 0 := by
      have hle := Real.sqrt_eq_zero'.mp hnorm
      have hnn : ∀ x ∈ (scoreMatrix M).map fun r => r.getD j 0 ^ 2, 0 ≤ x := by
        intro x hx
        simp only [List.mem_map] at hx
        obtain ⟨r, _, rfl⟩ := hx
        positivity
      exact le_antisymm hle (List.sum_nonneg hnn)
    have hcol : ∀ r ∈ scoreMatrix M, r.getD j 0 = 0 := by
      intro r hr
      have hmem : r.getD j 0 ^ 2 ∈ (scoreMatrix M).map fun r => r.getD j 0 ^ 2 :=
        List.mem_map_of_mem _ hr
      have hnn : ∀ x ∈ (scoreMatrix M).map fun r => r.getD j 0 ^ 2, 0 ≤ x := by
        intro x hx
        simp only [List.mem_map] at hx
        obtain ⟨r', _, rfl⟩ := hx
        positivity
      have := List.all_zero_of_le_zero_le_of_sum_eq_zero hnn hsum0 hmem
      exact pow_eq_zero_iff (by norm_num) |>.mp this
    simp only [normMatrix, List.mem_map] at hrow
    obtain ⟨srow, hsrow, rfl⟩ := hrow
    by_cases hj : j < srow.length
    · rw [List.getD_eq_getElem _ _ (by simpa using hj)]
      rw [List.getElem_mapIdx]
      have : srow[j] = srow.getD j 0 := (List.getD_eq_getElem _ _ hj).symm
      rw [this, hcol srow hsrow]
      simp
    · rw [List.getD_eq_default]
      simpa using Nat.le_of_not_lt hj
  · intro i hi h
    apply ccList_getD_zero
    · simpa [dPlusList, weightedMatrix, normMatrix, scoreMatrix] using hi
    · simpa [dMinusList, weightedMatrix, normMatrix, scoreMatrix] using hi
    · exact h
  · obtain ⟨hne, hrows, hw, halts⟩ := ftopsisGuard_spec M w alts hg
    refine ⟨(ftopsisRows M w alts).mergeSort ccGe, ?_, ?_⟩
    · unfold ftopsis
      rw [if_pos hg]
    · rw [List.length_mergeSort]
      exact ftopsisRows_length M w alts halts

/-- Witness for C4 at the concrete all-zero-score instance
`[[PFS(0.5, 0.5)]]` (its sole column norm and both ideal distances are 0). -/
theorem ftopsis_degenerate_defaults_witness :
    (∀ j, colNorm (scoreMatrix [[⟨0.5, 0.5⟩]]) j = 0 →
      colDenom (scoreMatrix [[⟨0.5, 0.5⟩]]) j = 1 ∧
      ∀ row ∈ normMatrix (scoreMatrix [[⟨0.5, 0.5⟩]]), row.getD j 0 = 0) ∧
    (∀ i : ℕ, i < [[(⟨0.5, 0.5⟩ : PFS)]].length →
      (dPlusList (weightedMatrix (scoreMatrix [[⟨0.5, 0.5⟩]]) [1])).getD i 0 +
        (dMinusList (weightedMatrix (scoreMatrix [[⟨0.5, 0.5⟩]]) [1])).getD i 0 = 0 →
      (ccList (dPlusList (weightedMatrix (scoreMatrix [[⟨0.5, 0.5⟩]]) [1]))
        (dMinusList (weightedMatrix (scoreMatrix [[⟨0.5, 0.5⟩]]) [1]))).getD i 0 = 0) ∧
    (∃ out, ftopsis [[⟨0.5, 0.5⟩]] [1] ["B1"] = some out ∧
      out.length = ["B1"].length) :=
  ftopsis_degenerate_defaults [[⟨0.5, 0.5⟩]] [1] ["B1"] rfl

/-- Helper: only the first `n = len(pfs_matrix[0])` weights are ever read, so
truncating the weight vector to that length leaves `V` unchanged. -/
theorem weightedMatrix_take (M : List (List PFS)) (w : List ℝ) :
    weightedMatrix (scoreMatrix M) (w.take (M.headD []).length) =
      weightedMatrix (scoreMatrix M) w := by
  unfold weightedMatrix
  apply List.map_congr_left
  intro row hrow
  have hlen : row.length ≤ (M.headD []).length := by
    simp only [normMatrix, List.mem_map] at hrow
    obtain ⟨srow, hsrow, rfl⟩ := hrow
    simp only [scoreMatrix, List.mem_map] at hsrow
    obtain ⟨orow, _, rfl⟩ := hsrow
    simp
  apply List.ext_getElem
  · simp
  · intro i h1 h2
    rw [List.getElem_mapIdx, List.getElem_mapIdx]
    have hi : i < (M.headD []).length := by
      refine lt_of_lt_of_le ?_ hlen
      simpa using h1
    congr 1
    simp only [List.getD_eq_getElem?_getD]
    rw [List.getElem?_take_of_lt hi]

/-- C9 counterexample: a weight vector of length 2 against a single-column
matrix (lengths do not match) makes `ftopsis` succeed, not fail. -/
theorem ftopsis_long_weights_accepted :
    ¬ ([(1 : ℝ), 1].length = ([[(⟨0.7, 0.5⟩ : PFS)]].headD []).length) ∧
    ftopsis [[⟨0.7, 0.5⟩]] [1, 1] ["B1"] ≠ none := by
  refine ⟨by simp, ?_⟩
  unfold ftopsis
  rw [if_pos (by rfl :
    ftopsisGuard [[(⟨0.7, 0.5⟩ : PFS)]] [(1 : ℝ), 1] ["B1"] = true)]
  simp

/-- C9 amended: `ftopsis` fails when the weight vector is shorter than the
matrix's column count (an index error, there being no dedicated shape check),
but a weight vector longer than the column count is accepted: the extra
entries are ignored, and the result equals that of the truncated vector. -/
theorem ftopsis_weight_length_behavior (M : List (List PFS)) (w : List ℝ)
    (alts : List String) :
    (w.length < (M.headD []).length → ftopsis M w alts = none) ∧
    ((M.headD []).length ≤ w.length →
      ftopsis M w alts = ftopsis M (w.take (M.headD []).length) alts) := by
  constructor
  · intro h
    have hng : ¬ (ftopsisGuard M w alts = true) := by
      intro hc
      have := (ftopsisGuard_spec M w alts hc).2.2.1
      omega
    unfold ftopsis
    rw [if_neg hng]
  · intro hn
    have hguard : ftopsisGuard M (w.take (M.headD []).length) alts =
        ftopsisGuard M w alts := by
      simp [ftopsisGuard, List.length_take, Nat.min_eq_left hn, hn]
    have hrows : ftopsisRows M (w.take (M.headD []).length) alts =
        ftopsisRows M w alts := by
      unfold ftopsisRows
      rw [weightedMatrix_take]
    unfold ftopsis
    rw [hguard, hrows]

/-- Witness for C9 amended: an empty weight vector fails against a
one-column matrix, while a two-entry one succeeds as if truncated. -/
theorem ftopsis_weight_length_behavior_witness :
    ftopsis [[(⟨0.7, 0.5⟩ : PFS)]] [] ["B1"] = none ∧
    ftopsis [[(⟨0.7, 0.5⟩ : PFS)]] [1, 1] ["B1"] =
      ftopsis [[(⟨0.7, 0.5⟩ : PFS)]]
        ([(1 : ℝ), 1].take ([[(⟨0.7, 0.5⟩ : PFS)]].headD []).length) ["B1"] :=
  ⟨(ftopsis_weight_length_behavior [[⟨0.7, 0.5⟩]] [] ["B1"]).1 (by simp),
   (ftopsis_weight_length_behavior [[⟨0.7, 0.5⟩]] [1, 1] ["B1"]).2 (by simp)⟩

/-- The per-cell expert average of `mu` computed by the aggregation loops of
`App.compute`: `sum(experts[e][i][j].mu for e in range(E)) / E`. -/
noncomputable def agg_mu (experts : List (List (List PFS))) (i j : ℕ) : ℝ :=
  (experts.map fun ex => ((ex.getD i []).getD j default).mu).sum / experts.length

/-- The per-cell expert average of `nu`, symmetric to `agg_mu`. -/
noncomputable def agg_nu (experts : List (List (List PFS))) (i j : ℕ) : ℝ :=
  (experts.map fun ex => ((ex.getD i []).getD j default).nu).sum / experts.length

/-- One aggregated cell `PFS(mu_avg, nu_avg)`, built through the validating
constructor. -/
noncomputable def aggregate_cell (experts : List (List (List PFS))) (i j : ℕ) :
    Option PFS :=
  PFS.make (agg_mu experts i j) (agg_nu experts i j)

/-- The expert aggregation of `App.compute` for an `R × C` grid (`R = C = 5`
there, for both the FAHP and the FTOPSIS matrices): row-major construction of
the consensus matrix; `none` models the `ValueError` escaping from a cell's
constructor. -/
noncomputable def aggregate (R C : ℕ) (experts : List (List (List PFS))) :
    Option (List (List PFS)) :=
  (List.range R).mapM fun i => (List.range C).mapM fun j => aggregate_cell experts i j

/-- Helper: `PFS.make` can only return the pair it was given. -/
theorem PFS.make_some_elim (mu nu : ℝ) (p : PFS) (h : PFS.make mu nu = some p) :
    p = ⟨mu, nu⟩ := by
  unfold PFS.make at h
  split at h <;> simp_all

/-- Helper: `mapM` over `Option` succeeds pointwise. -/
theorem mapM_option_eq_some_of_forall {α β : Type} (l : List α) (f : α → Option β)
    (g : α → β) (h : ∀ a ∈ l, f a = some (g a)) : l.mapM f = some (l.map g) := by
  induction l with
  | nil => rw [List.mapM_nil]; rfl
  | cons a t ih =>
    rw [List.mapM_cons, h a (by simp), ih fun x hx => h x (by simp [hx])]
    rfl

/-- Helper: `mapM` over `Option` fails as soon as one element fails. -/
theorem mapM_option_eq_none_of_mem {α β : Type} (l : List α) (f : α → Option β)
    (a : α) (ha : a ∈ l) (hf : f a = none) : l.mapM f = none := by
  induction ha with
  | head t => rw [List.mapM_cons, hf]; rfl
  | tail b hmem ih =>
    rw [List.mapM_cons]
    cases hb : f b with
    | none => rfl
    | some x => rw [ih]; rfl

/-- Helper: a successful `mapM` over `Option` determines length and cells. -/
theorem mapM_option_some_spec {α β : Type} [Inhabited α] [Inhabited β]
    (l : List α) (f : α → Option β) (r : List β) (h : l.mapM f = some r) :
    r.length = l.length ∧
    ∀ i, i < l.length → f (l.getD i default) = some (r.getD i default) := by
  induction l generalizing r with
  | nil =>
    rw [List.mapM_nil] at h
    have h' : ([] : List β) = r := by simpa using h
    subst h'
    simp
  | cons a t ih =>
    rw [List.mapM_cons] at h
    cases ha : f a with
    | none => rw [ha] at h; simp at h
    | some x =>
      rw [ha] at h
      cases ht : t.mapM f with
      | none => rw [ht] at h; simp at h
      | some xs =>
        rw [ht] at h
        have h' : x :: xs = r := by simpa using h
        subst h'
        obtain ⟨h1, h2⟩ := ih xs ht
        refine ⟨by simp [h1], ?_⟩
        intro i hi
        cases i with
        | zero => simpa using ha
        | succ k => simpa using h2 k (by simpa using hi)

/-- C5: aggregating `E ≥ 1` same-shape expert matrices fails exactly when
some averaged cell violates the Pythagorean bound (the output cell passes
through the validating constructor), and on success returns the `R × C`
matrix whose cell `(i, j)` carries the plain arithmetic mean — all experts
weighted equally — of the experts' `mu` and of their `nu` at `(i, j)`. -/
theorem aggregate_mean_and_validation (R C : ℕ)
    (experts : List (List (List PFS))) (_hE : 1 ≤ experts.length)
    (_hshape : ∀ ex ∈ experts, ex.length = R ∧ ∀ row ∈ ex, row.length = C) :
    (aggregate R C experts = none ↔
      ∃ i < R, ∃ j < C,
        agg_mu experts i j ^ 2 + agg_nu experts i j ^ 2 > 1 + 1e-9) ∧
    (∀ A, aggregate R C experts = some A →
      A.length = R ∧ (∀ row ∈ A, row.length = C) ∧
      ∀ i < R, ∀ j < C,
        (A.getD i []).getD j default =
          ⟨agg_mu experts i j, agg_nu experts i j⟩) := by
  constructor
  · constructor
    · intro hnone
      by_contra hx
      push_neg at hx
      have hsome : aggregate R C experts =
          some ((List.range R).map fun i =>
            (List.range C).map fun j =>
              (⟨agg_mu experts i j, agg_nu experts i j⟩ : PFS)) := by
        apply mapM_option_eq_some_of_forall
        intro i hi
        apply mapM_option_eq_some_of_forall
        intro j hj
        rw [aggregate_cell, PFS.make_eq_some_iff]
        exact hx i (List.mem_range.mp hi) j (List.mem_range.mp hj)
      rw [hsome] at hnone
      cases hnone
    · rintro ⟨i, hi, j, hj, hviol⟩
      apply mapM_option_eq_none_of_mem _ _ i (List.mem_range.mpr hi)
      apply mapM_option_eq_none_of_mem _ _ j (List.mem_range.mpr hj)
      exact (PFS.make_eq_none_iff _ _).mpr hviol
  · intro A hA
    obtain ⟨hlen, hcell⟩ := mapM_option_some_spec _ _ _ hA
    have hlenR : A.length = R := by simpa using hlen
    have hrowsome : ∀ i, i < R →
        ((List.range C).mapM fun j => aggregate_cell experts i j) =
          some (A.getD i default) := by
      intro i hi
      have := hcell i (by simpa using hi)
      rwa [List.getD_eq_getElem _ _ (by simpa using hi), List.getElem_range]
        at this
    refine ⟨hlenR, ?_, ?_⟩
    · intro row hrow
      obtain ⟨i, hilt, hrowi⟩ := List.mem_iff_getElem.mp hrow
      have hi : i < R := by omega
      obtain ⟨hl, -⟩ :=
        mapM_option_some_spec _ _ (A.getD i default) (hrowsome i hi)
      have : A.getD i default = row := by
        rw [List.getD_eq_getElem _ _ hilt, hrowi]
      rw [← this]
      simpa using hl
    · intro i hi j hj
      obtain ⟨-, hc⟩ :=
        mapM_option_some_spec _ _ (A.getD i default) (hrowsome i hi)
      have := hc j (by simpa using hj)
      rw [List.getD_eq_getElem _ _ (by simpa using hj), List.getElem_range]
        at this
      have hval := PFS.make_some_elim _ _ _ this
      have hdl : (A.getD i (default : List PFS)) = A.getD i [] := rfl
      rw [← hdl, hval]

/-- Witness for C5 at a single expert with a one-by-one matrix. -/
theorem aggregate_mean_and_validation_witness :
    (aggregate 1 1 [[[⟨0.7, 0.7⟩]]] = none ↔
      ∃ i < 1, ∃ j < 1,
        agg_mu [[[⟨0.7, 0.7⟩]]] i j ^ 2 + agg_nu [[[⟨0.7, 0.7⟩]]] i j ^ 2 >
          1 + 1e-9) ∧
    (∀ A, aggregate 1 1 [[[⟨0.7, 0.7⟩]]] = some A →
      A.length = 1 ∧ (∀ row ∈ A, row.length = 1) ∧
      ∀ i < 1, ∀ j < 1,
        (A.getD i []).getD j default =
          ⟨agg_mu [[[⟨0.7, 0.7⟩]]] i j, agg_nu [[[⟨0.7, 0.7⟩]]] i j⟩) :=
  aggregate_mean_and_validation 1 1 [[[⟨0.7, 0.7⟩]]] (by norm_num)
    (by intro ex hex; simp at hex; subst hex; constructor
        · rfl
        · intro row hrow; simp at hrow; subst hrow; rfl)

/-- Python's `round` to an integer: round-half-to-even (banker's rounding);
away from exact halves it agrees with rounding to the nearest integer. -/
noncomputable def pyRoundInt (x : ℝ) : ℤ :=
  if Int.fract x = 1 / 2 then (if 2 ∣ ⌊x⌋ then ⌊x⌋ else ⌈x⌉) else round x

/-- Python's `round(x, 4)`. -/
noncomputable def pyRound4 (x : ℝ) : ℝ :=
  (pyRoundInt (x * 10 ^ 4) : ℝ) / 10 ^ 4

/-- Helper: Python integer rounding moves a value by at most one half. -/
theorem pyRoundInt_close (y : ℝ) : |(pyRoundInt y : ℝ) - y| ≤ 1 / 2 := by
  unfold pyRoundInt
  split
  case isTrue h =>
    have hfr : y - ⌊y⌋ = 1 / 2 := h
    split
    case isTrue _ =>
      rw [abs_sub_comm, abs_of_nonneg (by linarith)]
      linarith
    case isFalse _ =>
      have hceil : (⌈y⌉ : ℝ) ≤ (⌊y⌋ : ℝ) + 1 := by
        exact_mod_cast Int.ceil_le_floor_add_one y
      have hy : y ≤ (⌈y⌉ : ℝ) := Int.le_ceil y
      rw [abs_of_nonneg (by linarith)]
      linarith
  case isFalse h =>
    rw [abs_sub_comm]
    exact abs_sub_round y

/-- Helper: rounding to four decimal places moves a value by at most `5e-5`. -/
theorem pyRound4_close (x : ℝ) : |pyRound4 x - x| ≤ 5e-5 := by
  unfold pyRound4
  have h := pyRoundInt_close (x * 10 ^ 4)
  have heq : (pyRoundInt (x * 10 ^ 4) : ℝ) / 10 ^ 4 - x =
      ((pyRoundInt (x * 10 ^ 4) : ℝ) - x * 10 ^ 4) / 10 ^ 4 := by ring
  rw [heq, abs_div, abs_of_pos (by norm_num : (0 : ℝ) < 10 ^ 4)]
  rw [div_le_iff₀ (by norm_num : (0 : ℝ) < 10 ^ 4)]
  linarith

/-- Helper: a natural number is already rounded. -/
theorem pyRoundInt_natCast (n : ℕ) : pyRoundInt (n : ℝ) = n := by
  unfold pyRoundInt
  rw [if_neg (by rw [Int.fract_natCast]; norm_num)]
  exact round_natCast n

/-- Helper: `round(0.0, 4) = 0.0`. -/
theorem pyRound4_zero : pyRound4 0 = 0 := by
  unfold pyRound4
  have h0 : (0 : ℝ) * 10 ^ 4 = ((0 : ℕ) : ℝ) := by norm_num
  rw [h0, pyRoundInt_natCast]
  norm_num

/-- Helper: `round(1.0, 4) = 1.0`. -/
theorem pyRound4_one : pyRound4 1 = 1 := by
  unfold pyRound4
  have h1 : (1 : ℝ) * 10 ^ 4 = ((10000 : ℕ) : ℝ) := by norm_num
  rw [h1, pyRoundInt_natCast]
  norm_num

/-- The `variances` list of `expert_agreement_analysis`: cells are visited
row-major over the `n × m` shape of the first expert's matrix, each
contributing the population variance of `mu` plus that of `nu` across the
experts. -/
noncomputable def cellVariances (pfs_experts : List (List (List PFS))) :
    List ℝ :=
  (List.range (pfs_experts.headD []).length).flatMap fun i =>
    (List.range ((pfs_experts.headD []).headD []).length).map fun j =>
      let mu_values := pfs_experts.map fun ex => ((ex.getD i []).getD j default).mu
      let nu_values := pfs_experts.map fun ex => ((ex.getD i []).getD j default).nu
      let mu_avg := mu_values.sum / mu_values.length
      let nu_avg := nu_values.sum / nu_values.length
      (mu_values.map fun mu => (mu - mu_avg) ^ 2).sum / mu_values.length +
        (nu_values.map fun nu => (nu - nu_avg) ^ 2).sum / nu_values.length

/-- The unrounded
`avg_variance = sum(variances) / len(variances) if variances else 0`. -/
noncomputable def avg_variance (pfs_experts : List (List (List PFS))) : ℝ :=
  if (cellVariances pfs_experts).isEmpty then 0
  else (cellVariances pfs_experts).sum / (cellVariances pfs_experts).length

/-- The dictionary returned by `expert_agreement_analysis`: the fields
Ortalama Varyans (average variance), Uyum Skoru (agreement score) and
Uyum Seviyesi (agreement level). -/
structure AgreementReport where
  avgVariance : ℝ
  score : ℝ
  level : String

/-- The function `expert_agreement_analysis(pfs_experts)`: the empty-input
default, otherwise the rounded average variance, the rounded score
`1 - min(avg_variance, 1)`, and the level bucket computed from the unrounded
average variance ("Yüksek"/"Orta"/"Düşük" = High/Medium/Low). -/
noncomputable def expert_agreement_analysis
    (pfs_experts : List (List (List PFS))) : AgreementReport :=
  if pfs_experts.isEmpty || (pfs_experts.headD []).isEmpty then ⟨0, 1, "Yüksek"⟩
  else
    ⟨pyRound4 (avg_variance pfs_experts),
     pyRound4 (1 - min (avg_variance pfs_experts) 1),
     if avg_variance pfs_experts < 0.1 then "Yüksek"
     else if avg_variance pfs_experts < 0.2 then "Orta" else "Düşük"⟩

/-- Helper: with a single expert every cell variance vanishes. -/
theorem cellVariances_single (M : List (List PFS)) :
    ∀ v ∈ cellVariances [M], v = 0 := by
  intro v hv
  unfold cellVariances at hv
  simp only [List.mem_flatMap, List.mem_map, List.mem_range] at hv
  obtain ⟨i, hi, j, hj, rfl⟩ := hv
  simp

/-- Helper: with a single expert the average variance is zero. -/
theorem avg_variance_single (M : List (List PFS)) : avg_variance [M] = 0 := by
  unfold avg_variance
  split
  · rfl
  · rw [List.sum_eq_zero (cellVariances_single M), zero_div]

/-- C8: a single expert's matrix always yields average variance `0.0`, score
`1` and the "Yüksek" (High) level, and an empty expert list — or one whose
first matrix is empty — yields the same maximal-agreement default rather
than failing. -/
theorem agreement_single_expert_and_empty (M : List (List PFS))
    (es : List (List (List PFS)))
    (hes : (es.isEmpty || (es.headD []).isEmpty) = true) :
    expert_agreement_analysis [M] = ⟨0, 1, "Yüksek"⟩ ∧
    expert_agreement_analysis es = ⟨0, 1, "Yüksek"⟩ := by
  constructor
  · unfold expert_agreement_analysis
    by_cases hM : M.isEmpty
    · rw [if_pos (by simp [hM])]
    · rw [if_neg (by simp [hM])]
      rw [avg_variance_single M, pyRound4_zero]
      rw [show (1 : ℝ) - min 0 1 = 1 by norm_num, pyRound4_one]
      rw [if_pos (by norm_num)]
  · unfold expert_agreement_analysis
    rw [if_pos hes]

/-- Witness for C8 at one expert with a one-by-one matrix, resp. no expert. -/
theorem agreement_single_expert_and_empty_witness :
    expert_agreement_analysis [[[⟨0.5, 0.7⟩]]] = ⟨0, 1, "Yüksek"⟩ ∧
    expert_agreement_analysis [] = ⟨0, 1, "Yüksek"⟩ :=
  agreement_single_expert_and_empty [[⟨0.5, 0.7⟩]] [] rfl

/-- C10: for non-empty expert input the two numeric fields of the agreement
report are the four-decimal roundings of the exact average variance and of
`1 - min(avg_variance, 1)` — each therefore within `5e-5` of its exact
value — while the qualitative level is computed from the unrounded average
variance. -/
theorem agreement_rounding (es : List (List (List PFS)))
    (hes : (es.isEmpty || (es.headD []).isEmpty) = false) :
    (expert_agreement_analysis es).avgVariance = pyRound4 (avg_variance es) ∧
    |(expert_agreement_analysis es).avgVariance - avg_variance es| ≤ 5e-5 ∧
    (expert_agreement_analysis es).score =
      pyRound4 (1 - min (avg_variance es) 1) ∧
    |(expert_agreement_analysis es).score - (1 - min (avg_variance es) 1)| ≤
      5e-5 ∧
    (expert_agreement_analysis es).level =
      (if avg_variance es < 0.1 then "Yüksek"
       else if avg_variance es < 0.2 then "Orta" else "Düşük") := by
  unfold expert_agreement_analysis
  rw [if_neg (by rw [hes]; simp)]
  exact ⟨rfl, pyRound4_close _, rfl, pyRound4_close _, rfl⟩

/-- Witness for C10 at a single expert with a one-by-one matrix. -/
theorem agreement_rounding_witness :
    (expert_agreement_analysis [[[⟨0.7, 0.7⟩]]]).avgVariance =
      pyRound4 (avg_variance [[[⟨0.7, 0.7⟩]]]) ∧
    |(expert_agreement_analysis [[[⟨0.7, 0.7⟩]]]).avgVariance -
      avg_variance [[[⟨0.7, 0.7⟩]]]| ≤ 5e-5 ∧
    (expert_agreement_analysis [[[⟨0.7, 0.7⟩]]]).score =
      pyRound4 (1 - min (avg_variance [[[⟨0.7, 0.7⟩]]]) 1) ∧
    |(expert_agreement_analysis [[[⟨0.7, 0.7⟩]]]).score -
      (1 - min (avg_variance [[[⟨0.7, 0.7⟩]]]) 1)| ≤ 5e-5 ∧
    (expert_agreement_analysis [[[⟨0.7, 0.7⟩]]]).level =
      (if avg_variance [[[⟨0.7, 0.7⟩]]] < 0.1 then "Yüksek"
       else if avg_variance [[[⟨0.7, 0.7⟩]]] < 0.2 then "Orta" else "Düşük") :=
  agreement_rounding [[[⟨0.7, 0.7⟩]]] rfl

/-- numpy `arr.mean()`. -/
noncomputable def npMean (l : List ℝ) : ℝ := l.sum / l.length

/-- numpy `arr.std()`: the population standard deviation (`ddof = 0`). -/
noncomputable def npStd (l : List ℝ) : ℝ :=
  Real.sqrt ((l.map fun x => (x - npMean l) ^ 2).sum / l.length)

/-- numpy `arr.min()` / Python `min` (the call sites are nonempty). -/
noncomputable def npMin (l : List ℝ) : ℝ := (l.min?).getD 0

/-- numpy `arr.max()` / Python `max` (the call sites are nonempty). -/
noncomputable def npMax (l : List ℝ) : ℝ := (l.max?).getD 0

/-- The record returned by `statistical_summary`: mean, standard deviation,
min, max and range of the `CC` column, and mean, max, min of the weights. -/
structure StatSummary where
  meanCC : ℝ
  stdCC : ℝ
  minCC : ℝ
  maxCC : ℝ
  rangeCC : ℝ
  meanWeight : ℝ
  maxWeight : ℝ
  minWeight : ℝ

/-- The function `statistical_summary(weights, result_df)` applied to the
`CC` column values of the result table. -/
noncomputable def statistical_summary (weights : List ℝ)
    (cc_values : List ℝ) : StatSummary :=
  ⟨npMean cc_values, npStd cc_values, npMin cc_values, npMax cc_values,
   npMax cc_values - npMin cc_values,
   weights.sum / weights.length, npMax weights, npMin weights⟩

/-- C7: the standard deviation reported by `statistical_summary` is the
population one (divisor `n`): on `CC = [0.2, 0.4, 0.6, 0.8]` the mean is
`0.5` and the standard deviation, `sqrt(0.05)`, lies within `5e-5` of
`0.2236` and more than `1e-2` away from the sample estimate `0.2582`. -/
theorem summary_population_std :
    (statistical_summary [1] [0.2, 0.4, 0.6, 0.8]).meanCC = 0.5 ∧
    |(statistical_summary [1] [0.2, 0.4, 0.6, 0.8]).stdCC - 0.2236| ≤ 5e-5 ∧
    |(statistical_summary [1] [0.2, 0.4, 0.6, 0.8]).stdCC - 0.2582| > 1e-2 := by
  have hmean : npMean [0.2, 0.4, 0.6, 0.8] = 0.5 := by
    unfold npMean
    norm_num
  have hstd : npStd [0.2, 0.4, 0.6, 0.8] = Real.sqrt 0.05 := by
    unfold npStd
    rw [hmean]
    congr 1
    norm_num
  have hlow : (0.2236 : ℝ) < Real.sqrt 0.05 := by
    rw [show (0.05 : ℝ) = 0.05 from rfl]
    have := (Real.lt_sqrt (by norm_num : (0 : ℝ) ≤ 0.2236)).mpr
      (by norm_num : (0.2236 : ℝ) ^ 2 < 0.05)
    exact this
  have hhigh : Real.sqrt 0.05 < 0.22365 := by
    have := (Real.sqrt_lt' (by norm_num : (0 : ℝ) < 0.22365)).mpr
      (by norm_num : (0.05 : ℝ) < 0.22365 ^ 2)
    exact this
  refine ⟨hmean, ?_, ?_⟩
  · show |npStd [0.2, 0.4, 0.6, 0.8] - 0.2236| ≤ 5e-5
    rw [hstd]
    rw [abs_of_pos (by linarith)]
    linarith
  · show |npStd [0.2, 0.4, 0.6, 0.8] - 0.2582| > 1e-2
    rw [hstd]
    rw [abs_of_neg (by linarith)]
    linarith

end FahpFtopsis
